import Mathlib

/-!
Verification of the `UnionFind` disjoint-set structure from
`src/data_structures/union_find.rs`.

The Rust structure owns two parallel `Vec<usize>` arrays, `parents` and
`ranks`.  We embed it shallowly: `usize` values become `Nat` (with
saturating addition modelled explicitly against `USIZE_MAX = 2^64 - 1`),
vector indexing that would panic out of bounds becomes `Option`-returning
access, and the `while` loop inside `find` becomes a fuel-indexed
recursion (`findAux`) whose fuel is the element count — under the forest
invariant the walk to the root takes strictly fewer steps than that, so
the fuel is never exhausted on valid states.
-/

namespace UF

/-- Maximum value of a `usize` (the Rust code targets 64-bit platforms);
`saturating_add` clamps at this value. -/
def USIZE_MAX : Nat := 2 ^ 64 - 1

/-- `usize::saturating_add` on the `Nat` embedding. -/
def saturating_add (a b : Nat) : Nat := min (a + b) USIZE_MAX

/-- The `UnionFind` struct: parallel `parents` and `ranks` vectors. -/
structure UnionFind where
  parents : List Nat
  ranks : List Nat
deriving DecidableEq, Repr

namespace UnionFind

/-- `UnionFind::with_size`: every element its own parent, all ranks 0. -/
def with_size (size : Nat) : UnionFind :=
  { parents := List.range size, ranks := List.replicate size 0 }

/-- `UnionFind::with_ranks`: caller-supplied ranks, parents as in `with_size`. -/
def with_ranks (ranks : List Nat) : UnionFind :=
  { parents := List.range ranks.length, ranks := ranks }

/-- `UnionFind::len`. -/
def len (uf : UnionFind) : Nat := uf.parents.length

/-- `UnionFind::is_empty`. -/
def is_empty (uf : UnionFind) : Bool := uf.parents.isEmpty

/-- `UnionFind::extend`: push ids `len(), …, len()+size-1` onto `parents`
and zeros onto `ranks`. -/
def extend (uf : UnionFind) (size : Nat) : UnionFind :=
  { parents := uf.parents ++ List.range' uf.parents.length size,
    ranks := uf.ranks ++ List.replicate size 0 }

/-- `UnionFind::parent`: `self.parents[element]`; `none` models the
out-of-bounds index panic. -/
def parent (uf : UnionFind) (element : Nat) : Option Nat :=
  uf.parents[element]?

/-- `UnionFind::set_parent`: `self.parents[element] = parent`; `none`
models the out-of-bounds index panic. -/
def set_parent (uf : UnionFind) (element p : Nat) : Option UnionFind :=
  if element < uf.parents.length then
    some { uf with parents := uf.parents.set element p }
  else none

/-- `UnionFind::increment_rank`:
`self.ranks[element] = self.ranks[element].saturating_add(1)`. -/
def increment_rank (uf : UnionFind) (element : Nat) : Option UnionFind :=
  match uf.ranks[element]? with
  | none => none
  | some r => some { uf with ranks := uf.ranks.set element (saturating_add r 1) }

/-- The `while element != parent` loop body of `UnionFind::find`,
fuel-indexed.  Each iteration reads the grandparent, repoints the current
element at it, and advances one step up the tree. -/
def findAux : Nat → UnionFind → Nat → Nat → Option (Nat × UnionFind)
  | 0, _, _, _ => none
  | fuel + 1, uf, element, par =>
    if element = par then some (element, uf)
    else
      match uf.parent par with
      | none => none
      | some next =>
        match uf.set_parent element next with
        | none => none
        | some uf2 => findAux fuel uf2 par next

/-- `UnionFind::find`: read the initial parent, then run the loop.  The
fuel `uf.len` suffices on every well-formed state. -/
def find (uf : UnionFind) (element : Nat) : Option (Nat × UnionFind) :=
  match uf.parent element with
  | none => none
  | some par => findAux uf.len uf element par

/-- `UnionFind::union`. -/
def union (uf : UnionFind) (a b : Nat) : Option (Bool × UnionFind) :=
  match uf.find a with
  | none => none
  | some (rep_a, uf1) =>
    match uf1.find b with
    | none => none
    | some (rep_b, uf2) =>
      if rep_a = rep_b then some (false, uf2)
      else
        match uf2.ranks[rep_a]? with
        | none => none
        | some rank_a =>
          match uf2.ranks[rep_b]? with
          | none => none
          | some rank_b =>
            if rank_b < rank_a then
              match uf2.set_parent rep_b rep_a with
              | none => none
              | some uf3 => some (true, uf3)
            else if rank_a < rank_b then
              match uf2.set_parent rep_a rep_b with
              | none => none
              | some uf3 => some (true, uf3)
            else
              match uf2.set_parent rep_a rep_b with
              | none => none
              | some uf3 =>
                match uf3.increment_rank rep_b with
                | none => none
                | some uf4 => some (true, uf4)

/-- `UnionFind::in_same_set`: `self.find(a) == self.find(b)`. -/
def in_same_set (uf : UnionFind) (a b : Nat) : Option (Bool × UnionFind) :=
  match uf.find a with
  | none => none
  | some (rep_a, uf1) =>
    match uf1.find b with
    | none => none
    | some (rep_b, uf2) => some (rep_a == rep_b, uf2)

/-- Parent pointer of `i` as a total function (in-bounds reads agree with
`parent`; the default `i` is never used on well-formed states). -/
def parentD (uf : UnionFind) (i : Nat) : Nat := (uf.parents[i]?).getD i

/-- Rank of `i` as a total function (default 0). -/
def rankD (uf : UnionFind) (i : Nat) : Nat := (uf.ranks[i]?).getD 0

/-- `k`-fold parent-pointer iteration from `i`. -/
def iterP (uf : UnionFind) : Nat → Nat → Nat
  | 0, i => i
  | k + 1, i => iterP uf k (parentD uf i)

/-- `i` is a root: its parent pointer is itself. -/
def isRoot (uf : UnionFind) (i : Nat) : Prop := parentD uf i = i

instance (uf : UnionFind) (i : Nat) : Decidable (uf.isRoot i) :=
  inferInstanceAs (Decidable (parentD uf i = i))

/-- The walk from `i` reaches a root. -/
def Rooted (uf : UnionFind) (i : Nat) : Prop := ∃ k, isRoot uf (iterP uf k i)

/-- The forest invariant: parallel arrays have equal length, parent
pointers stay in bounds, and every element reaches a root in fewer than
`len` steps. -/
def WF (uf : UnionFind) : Prop :=
  uf.ranks.length = uf.parents.length ∧
  (∀ i < uf.len, parentD uf i < uf.len) ∧
  (∀ i < uf.len, ∃ k < uf.len, isRoot uf (iterP uf k i))

instance (uf : UnionFind) : Decidable uf.WF := by
  unfold WF; infer_instance

/-- The root of `i`'s tree, computed by iterating `len` times (enough on
any well-formed state). -/
def rootOf (uf : UnionFind) (i : Nat) : Nat := iterP uf uf.len i

/-- The pure effect of a successful `set_parent`. -/
def setParents (uf : UnionFind) (x q : Nat) : UnionFind :=
  { uf with parents := uf.parents.set x q }

theorem parent_eq_parentD (uf : UnionFind) (i : Nat) (h : i < uf.len) :
    uf.parent i = some (parentD uf i) := by
  simp [parent, parentD, List.getElem?_eq_getElem (show i < uf.parents.length from h)]

theorem parent_none (uf : UnionFind) (i : Nat) (h : uf.len ≤ i) :
    uf.parent i = none := by
  simp [parent, List.getElem?_eq_none (show uf.parents.length ≤ i from h)]

theorem set_parent_eq (uf : UnionFind) (x q : Nat) (h : x < uf.len) :
    uf.set_parent x q = some (setParents uf x q) := by
  simp [set_parent, setParents, if_pos (show x < uf.parents.length from h)]

theorem set_parent_none (uf : UnionFind) (x q : Nat) (h : uf.len ≤ x) :
    uf.set_parent x q = none := by
  simp [set_parent, if_neg (Nat.not_lt.mpr (show uf.parents.length ≤ x from h))]

theorem len_setParents (uf : UnionFind) (x q : Nat) :
    (setParents uf x q).len = uf.len := by
  simp [setParents, len]

theorem ranks_setParents (uf : UnionFind) (x q : Nat) :
    (setParents uf x q).ranks = uf.ranks := rfl

theorem parentD_setParents (uf : UnionFind) (x q i : Nat) (hx : x < uf.len) :
    parentD (setParents uf x q) i = if i = x then q else parentD uf i := by
  by_cases h : i = x
  · subst h
    simp [parentD, setParents, List.getElem?_set_self (show i < uf.parents.length from hx)]
  · rw [if_neg h]
    simp [parentD, setParents, List.getElem?_set_ne (fun hxi => h hxi.symm)]

theorem isRoot_setParents (uf : UnionFind) (x q i : Nat) (hx : x < uf.len)
    (h : i ≠ x) : (isRoot (setParents uf x q) i ↔ isRoot uf i) := by
  unfold isRoot
  rw [parentD_setParents uf x q i hx, if_neg h]

theorem iterP_succ_outer (uf : UnionFind) (k i : Nat) :
    iterP uf (k + 1) i = parentD uf (iterP uf k i) := by
  induction k generalizing i with
  | zero => rfl
  | succ k ih => rw [show k + 1 + 1 = k + 1 + 1 from rfl]; exact ih (parentD uf i)

theorem iterP_add (uf : UnionFind) (a b i : Nat) :
    iterP uf (a + b) i = iterP uf b (iterP uf a i) := by
  induction a generalizing i with
  | zero => simp [iterP]
  | succ a ih =>
    have h1 : a + 1 + b = (a + b) + 1 := by omega
    rw [h1]
    exact ih (parentD uf i)

theorem isRoot_iterP (uf : UnionFind) (r : Nat) (h : isRoot uf r) (k : Nat) :
    iterP uf k r = r := by
  induction k with
  | zero => rfl
  | succ k ih => rw [iterP_succ_outer, ih, h]

theorem iterP_lt (uf : UnionFind) (hB : ∀ i < uf.len, parentD uf i < uf.len)
    (i : Nat) (h : i < uf.len) (k : Nat) : iterP uf k i < uf.len := by
  induction k generalizing i with
  | zero => exact h
  | succ k ih => exact ih (parentD uf i) (hB i h)

theorem iterP_stable (uf : UnionFind) (k m i : Nat)
    (h : isRoot uf (iterP uf k i)) (hm : k ≤ m) :
    iterP uf m i = iterP uf k i := by
  have h1 : m = k + (m - k) := by omega
  rw [h1, iterP_add]
  exact isRoot_iterP uf _ h _

theorem rooted_lt_len (uf : UnionFind)
    (hB : ∀ i < uf.len, parentD uf i < uf.len) (i : Nat) (hi : i < uf.len)
    (h : ∃ k, isRoot uf (iterP uf k i)) :
    ∃ k < uf.len, isRoot uf (iterP uf k i) := by
  have hfind := Nat.find_spec h
  by_cases hk : Nat.find h < uf.len
  · exact ⟨Nat.find h, hk, hfind⟩
  · exfalso
    push_neg at hk
    obtain ⟨a, ha, b, hb, hne, heq⟩ :=
      Finset.exists_ne_map_eq_of_card_lt_of_maps_to
        (s := Finset.range (uf.len + 1)) (t := Finset.range uf.len)
        (by simp)
        (fun j _ => Finset.mem_range.mpr (iterP_lt uf hB i hi j))
    simp only [Finset.mem_range] at ha hb
    -- without loss of generality a < b
    rcases hne.lt_or_lt with hab | hab
    · have hshift : iterP uf (a + (Nat.find h - b)) i =
          iterP uf (Nat.find h) i := by
        rw [iterP_add, heq, ← iterP_add]
        congr 1
        omega
      have hlt : a + (Nat.find h - b) < Nat.find h := by omega
      exact Nat.find_min h hlt (hshift ▸ hfind)
    · have hshift : iterP uf (b + (Nat.find h - a)) i =
          iterP uf (Nat.find h) i := by
        rw [iterP_add, ← heq, ← iterP_add]
        congr 1
        omega
      have hlt : b + (Nat.find h - a) < Nat.find h := by omega
      exact Nat.find_min h hlt (hshift ▸ hfind)

theorem rootOf_eq_of_isRoot (uf : UnionFind)
    (hB : ∀ i < uf.len, parentD uf i < uf.len) (i k : Nat) (hi : i < uf.len)
    (hk : isRoot uf (iterP uf k i)) : rootOf uf i = iterP uf k i := by
  obtain ⟨k1, hk1, hroot1⟩ := rooted_lt_len uf hB i hi ⟨k, hk⟩
  unfold rootOf
  rcases le_or_lt k uf.len with h | h
  · exact iterP_stable uf k uf.len i hk h
  · rw [iterP_stable uf k1 uf.len i hroot1 (Nat.le_of_lt hk1),
      iterP_stable uf k1 k i hroot1 (by omega)]

theorem isRoot_rootOf (uf : UnionFind)
    (hB : ∀ i < uf.len, parentD uf i < uf.len) (i : Nat) (hi : i < uf.len)
    (h : ∃ k, isRoot uf (iterP uf k i)) : isRoot uf (rootOf uf i) := by
  obtain ⟨k, hk⟩ := h
  rw [rootOf_eq_of_isRoot uf hB i k hi hk]
  exact hk

theorem rootOf_lt (uf : UnionFind)
    (hB : ∀ i < uf.len, parentD uf i < uf.len) (i : Nat) (hi : i < uf.len) :
    rootOf uf i < uf.len :=
  iterP_lt uf hB i hi uf.len

theorem rootOf_parentD (uf : UnionFind)
    (hB : ∀ i < uf.len, parentD uf i < uf.len) (i : Nat) (hi : i < uf.len)
    (h : ∃ k, isRoot uf (iterP uf k i)) :
    rootOf uf (parentD uf i) = rootOf uf i := by
  by_cases hr : isRoot uf i
  · rw [hr]
  · obtain ⟨k, hk⟩ := h
    match k, hk with
    | 0, hk => exact absurd hk hr
    | k + 1, hk =>
      rw [rootOf_eq_of_isRoot uf hB i (k + 1) hi hk]
      exact rootOf_eq_of_isRoot uf hB (parentD uf i) k (hB i hi) hk

theorem iterP_setParents_off (uf : UnionFind) (x q : Nat) (hx : x < uf.len) :
    ∀ j i, (∀ m < j, iterP uf m i ≠ x) →
      iterP (setParents uf x q) j i = iterP uf j i := by
  intro j
  induction j with
  | zero => intro i _; rfl
  | succ j ih =>
    intro i h
    have hix : i ≠ x := h 0 (Nat.succ_pos j)
    have hp : parentD (setParents uf x q) i = parentD uf i := by
      rw [parentD_setParents uf x q i hx, if_neg hix]
    show iterP (setParents uf x q) j (parentD (setParents uf x q) i) =
      iterP uf j (parentD uf i)
    rw [hp]
    exact ih (parentD uf i) (fun m hm => h (m + 1) (by omega))

theorem path_distinct (uf : UnionFind) (i k : Nat)
    (hk : isRoot uf (iterP uf k i))
    (hmin : ∀ j < k, ¬ isRoot uf (iterP uf j i)) :
    ∀ a b, a < b → b ≤ k → iterP uf a i ≠ iterP uf b i := by
  intro a b hab hbk heq
  have hshift : iterP uf (a + (k - b)) i = iterP uf k i := by
    rw [iterP_add, heq, ← iterP_add]
    congr 1
    omega
  have hlt : a + (k - b) < k := by omega
  exact hmin _ hlt (hshift ▸ hk)

/-- Attaching one root `x` under another root `q` preserves reachability
of roots, and remaps exactly the class of `x` to the new root `q`. -/
theorem attach_preserve (uf : UnionFind) (x q : Nat)
    (hB : ∀ i < uf.len, parentD uf i < uf.len)
    (hx : x < uf.len) (hrx : isRoot uf x) (hrq : isRoot uf q) (hne : x ≠ q) :
    ∀ k i, i < uf.len → isRoot uf (iterP uf k i) →
      ∃ j, isRoot (setParents uf x q) (iterP (setParents uf x q) j i) ∧
        iterP (setParents uf x q) j i =
          (if iterP uf k i = x then q else iterP uf k i) := by
  have hqx : q ≠ x := Ne.symm hne
  have base : ∀ i, isRoot uf i →
      ∃ j, isRoot (setParents uf x q) (iterP (setParents uf x q) j i) ∧
        iterP (setParents uf x q) j i = (if i = x then q else i) := by
    intro i hri
    by_cases hix : i = x
    · subst hix
      have hp : parentD (setParents uf i q) i = q := by
        rw [parentD_setParents uf i q i hx, if_pos rfl]
      refine ⟨1, ?_, ?_⟩
      · show isRoot (setParents uf i q) (parentD (setParents uf i q) i)
        rw [hp]
        exact (isRoot_setParents uf i q q hx hqx).mpr hrq
      · rw [if_pos rfl]
        show parentD (setParents uf i q) i = q
        exact hp
    · exact ⟨0, (isRoot_setParents uf x q i hx hix).mpr hri, by
        show i = _
        rw [if_neg hix]⟩
  intro k
  induction k with
  | zero => intro i _ hr; exact base i hr
  | succ k ih =>
    intro i hi hr
    by_cases hri : isRoot uf i
    · have hv : iterP uf (k + 1) i = i := isRoot_iterP uf i hri (k + 1)
      rw [hv]
      exact base i hri
    · have hix : i ≠ x := fun h => hri (h ▸ hrx)
      have hp : parentD (setParents uf x q) i = parentD uf i := by
        rw [parentD_setParents uf x q i hx, if_neg hix]
      have hr' : isRoot uf (iterP uf k (parentD uf i)) := hr
      obtain ⟨j, hj1, hj2⟩ := ih (parentD uf i) (hB i hi) hr'
      refine ⟨j + 1, ?_, ?_⟩
      · show isRoot _ (iterP _ j (parentD (setParents uf x q) i))
        rw [hp]
        exact hj1
      · show iterP _ j (parentD (setParents uf x q) i) = _
        rw [hp, hj2]
        rfl

/-- A path-halving write (repointing a non-root `x` at its grandparent)
preserves reachability of roots and the identity of the reached root,
without lengthening any path. -/
theorem halving_preserve (uf : UnionFind) (x : Nat)
    (hB : ∀ i < uf.len, parentD uf i < uf.len)
    (hx : x < uf.len) (hnr : ¬ isRoot uf x) :
    ∀ k i, i < uf.len → isRoot uf (iterP uf k i) →
      ∃ j ≤ k, isRoot (setParents uf x (parentD uf (parentD uf x)))
          (iterP (setParents uf x (parentD uf (parentD uf x))) j i) ∧
        iterP (setParents uf x (parentD uf (parentD uf x))) j i =
          iterP uf k i := by
  intro k
  induction k using Nat.strong_induction_on with
  | _ k ih =>
    intro i hi hr
    by_cases hri : isRoot uf i
    · have hix : i ≠ x := fun h => hnr (h ▸ hri)
      refine ⟨0, Nat.zero_le k, (isRoot_setParents uf x _ i hx hix).mpr hri, ?_⟩
      show i = iterP uf k i
      exact (isRoot_iterP uf i hri k).symm
    · cases k with
      | zero => exact absurd hr hri
      | succ k =>
        by_cases hix : i = x
        · subst hix
          have hpg : parentD (setParents uf i (parentD uf (parentD uf i))) i =
              parentD uf (parentD uf i) := by
            rw [parentD_setParents uf i _ i hx, if_pos rfl]
          by_cases hrp : isRoot uf (parentD uf i)
          · -- the parent is a root, so the grandparent equals the parent
            have hg : parentD uf (parentD uf i) = parentD uf i := hrp
            have hpx : parentD uf i ≠ i := fun h => hri h
            refine ⟨1, by omega, ?_, ?_⟩
            · show isRoot _
                (parentD (setParents uf i (parentD uf (parentD uf i))) i)
              rw [hpg, hg]
              exact (isRoot_setParents uf i _ (parentD uf i) hx hpx).mpr hrp
            · show parentD (setParents uf i (parentD uf (parentD uf i))) i = _
              rw [hpg, hg]
              have hst : iterP uf k (parentD uf i) = parentD uf i :=
                isRoot_iterP uf _ hrp k
              exact hst.symm
          · cases k with
            | zero =>
              exact absurd hr hrp
            | succ k =>
              have hpl : parentD uf i < uf.len := hB i hi
              have hgl : parentD uf (parentD uf i) < uf.len := hB _ hpl
              have hr' : isRoot uf (iterP uf k (parentD uf (parentD uf i))) := hr
              obtain ⟨j, hjle, hj1, hj2⟩ := ih k (by omega) _ hgl hr'
              refine ⟨j + 1, by omega, ?_, ?_⟩
              · show isRoot _
                  (iterP (setParents uf i (parentD uf (parentD uf i))) j
                    (parentD (setParents uf i (parentD uf (parentD uf i))) i))
                rw [hpg]
                exact hj1
              · show iterP (setParents uf i (parentD uf (parentD uf i))) j
                  (parentD (setParents uf i (parentD uf (parentD uf i))) i) = _
                rw [hpg, hj2]
                rfl
        · have hp : parentD (setParents uf x (parentD uf (parentD uf x))) i =
              parentD uf i := by
            rw [parentD_setParents uf x _ i hx, if_neg hix]
          have hr' : isRoot uf (iterP uf k (parentD uf i)) := hr
          obtain ⟨j, hjle, hj1, hj2⟩ := ih k (by omega) (parentD uf i) (hB i hi) hr'
          refine ⟨j + 1, by omega, ?_, ?_⟩
          · show isRoot _ (iterP _ j (parentD (setParents uf x _) i))
            rw [hp]
            exact hj1
          · show iterP _ j (parentD (setParents uf x _) i) = _
            rw [hp, hj2]
            rfl

theorem WF_attach (uf : UnionFind) (x q : Nat) (hWF : WF uf)
    (hx : x < uf.len) (hq : q < uf.len) (hrx : isRoot uf x)
    (hrq : isRoot uf q) (hne : x ≠ q) :
    WF (setParents uf x q) ∧
      ∀ i < uf.len, rootOf (setParents uf x q) i =
        (if rootOf uf i = x then q else rootOf uf i) := by
  obtain ⟨hlen, hB, hR⟩ := hWF
  have hlen2 : (setParents uf x q).len = uf.len := len_setParents uf x q
  have hB2 : ∀ i < (setParents uf x q).len,
      parentD (setParents uf x q) i < (setParents uf x q).len := by
    intro i hi
    rw [hlen2] at hi ⊢
    rw [parentD_setParents uf x q i hx]
    by_cases h : i = x
    · rw [if_pos h]; exact hq
    · rw [if_neg h]; exact hB i hi
  have hroot2 : ∀ i < uf.len,
      ∃ j, isRoot (setParents uf x q) (iterP (setParents uf x q) j i) ∧
        iterP (setParents uf x q) j i =
          (if rootOf uf i = x then q else rootOf uf i) := by
    intro i hi
    obtain ⟨k, _, hk⟩ := hR i hi
    obtain ⟨j, hj1, hj2⟩ := attach_preserve uf x q hB hx hrx hrq hne k i hi hk
    refine ⟨j, hj1, ?_⟩
    rw [hj2, rootOf_eq_of_isRoot uf hB i k hi hk]
  refine ⟨⟨?_, hB2, ?_⟩, ?_⟩
  · simpa [setParents] using hlen
  · intro i hi
    obtain ⟨j, hj1, _⟩ := hroot2 i (hlen2 ▸ hi)
    exact rooted_lt_len (setParents uf x q) hB2 i hi ⟨j, hj1⟩
  · intro i hi
    obtain ⟨j, hj1, hj2⟩ := hroot2 i hi
    rw [rootOf_eq_of_isRoot (setParents uf x q) hB2 i j (hlen2 ▸ hi) hj1]
    exact hj2

theorem WF_halving (uf : UnionFind) (x : Nat) (hWF : WF uf)
    (hx : x < uf.len) (hnr : ¬ isRoot uf x) :
    WF (setParents uf x (parentD uf (parentD uf x))) ∧
      ∀ i < uf.len,
        rootOf (setParents uf x (parentD uf (parentD uf x))) i = rootOf uf i := by
  obtain ⟨hlen, hB, hR⟩ := hWF
  have hlen2 : (setParents uf x (parentD uf (parentD uf x))).len = uf.len :=
    len_setParents uf x _
  have hgl : parentD uf (parentD uf x) < uf.len := hB _ (hB x hx)
  have hB2 : ∀ i < (setParents uf x (parentD uf (parentD uf x))).len,
      parentD (setParents uf x (parentD uf (parentD uf x))) i <
        (setParents uf x (parentD uf (parentD uf x))).len := by
    intro i hi
    rw [hlen2] at hi ⊢
    rw [parentD_setParents uf x _ i hx]
    by_cases h : i = x
    · rw [if_pos h]; exact hgl
    · rw [if_neg h]; exact hB i hi
  have hroot2 : ∀ i < uf.len,
      ∃ j, isRoot (setParents uf x (parentD uf (parentD uf x)))
          (iterP (setParents uf x (parentD uf (parentD uf x))) j i) ∧
        iterP (setParents uf x (parentD uf (parentD uf x))) j i =
          rootOf uf i := by
    intro i hi
    obtain ⟨k, _, hk⟩ := hR i hi
    obtain ⟨j, _, hj1, hj2⟩ := halving_preserve uf x hB hx hnr k i hi hk
    refine ⟨j, hj1, ?_⟩
    rw [hj2, rootOf_eq_of_isRoot uf hB i k hi hk]
  refine ⟨⟨?_, hB2, ?_⟩, ?_⟩
  · simpa [setParents] using hlen
  · intro i hi
    obtain ⟨j, hj1, _⟩ := hroot2 i (hlen2 ▸ hi)
    exact rooted_lt_len _ hB2 i hi ⟨j, hj1⟩
  · intro i hi
    obtain ⟨j, hj1, hj2⟩ := hroot2 i hi
    rw [rootOf_eq_of_isRoot _ hB2 i j (hlen2 ▸ hi) hj1]
    exact hj2

theorem findAux_root (fuel : Nat) (uf : UnionFind) (element : Nat) :
    findAux (fuel + 1) uf element element = some (element, uf) := by
  simp [findAux]

theorem findAux_step_some (fuel : Nat) (uf uf2 : UnionFind)
    (element par next : Nat) (hne : element ≠ par)
    (h1 : uf.parent par = some next) (h2 : uf.set_parent element next = some uf2) :
    findAux (fuel + 1) uf element par = findAux fuel uf2 par next := by
  simp [findAux, hne, h1, h2]

/-- Full characterization of the `find` loop on a well-formed state, by
induction on the length `k` of the (minimal) path from `e` to its root:
the loop returns the root without exhausting fuel, leaves `ranks` and
`len` alone, preserves well-formedness and every element's root, points
each visited node at the next ancestor beyond its old parent, and leaves
every unvisited parent pointer unchanged. -/
theorem findAux_main : ∀ k (uf : UnionFind) (e fuel : Nat), WF uf →
    e < uf.len → isRoot uf (iterP uf k e) →
    (∀ j < k, ¬ isRoot uf (iterP uf j e)) → k < fuel →
    ∃ uf2, findAux fuel uf e (parentD uf e) = some (rootOf uf e, uf2) ∧
      uf2.ranks = uf.ranks ∧ uf2.len = uf.len ∧ WF uf2 ∧
      (∀ x < uf.len, rootOf uf2 x = rootOf uf x) ∧
      (∀ j < k, parentD uf2 (iterP uf j e) = iterP uf (j + 2) e) ∧
      (∀ x < uf.len, (∀ j ≤ k, x ≠ iterP uf j e) → parentD uf2 x = parentD uf x) := by
  intro k
  induction k with
  | zero =>
    intro uf e fuel hWF he hr _ hfuel
    obtain ⟨hlen, hB, hR⟩ := hWF
    cases fuel with
    | zero => omega
    | succ f =>
      refine ⟨uf, ?_, rfl, rfl, ⟨hlen, hB, hR⟩, fun x _ => rfl, ?_, fun x _ _ => rfl⟩
      · rw [show parentD uf e = e from hr, findAux_root,
          rootOf_eq_of_isRoot uf hB e 0 he hr]
        rfl
      · intro j hj
        omega
  | succ k ih =>
    intro uf e fuel hWF he hr hmin hfuel
    have hre : ¬ isRoot uf e := hmin 0 (Nat.succ_pos k)
    obtain ⟨hlen, hB, hR⟩ := hWF
    cases fuel with
    | zero => omega
    | succ f =>
      have hne_ep : e ≠ parentD uf e := fun h => hre h.symm
      have hp_lt : parentD uf e < uf.len := hB e he
      have h1 : uf.parent (parentD uf e) = some (parentD uf (parentD uf e)) :=
        parent_eq_parentD uf (parentD uf e) hp_lt
      have h2 : uf.set_parent e (parentD uf (parentD uf e)) =
          some (setParents uf e (parentD uf (parentD uf e))) :=
        set_parent_eq uf e _ he
      obtain ⟨hWF2, hroots2⟩ := WF_halving uf e ⟨hlen, hB, hR⟩ he hre
      have hlen2 : (setParents uf e (parentD uf (parentD uf e))).len = uf.len :=
        len_setParents uf e _
      -- transfer of the walk from `parentD uf e` to the modified state
      have htrans : ∀ j ≤ k + 1,
          iterP (setParents uf e (parentD uf (parentD uf e))) j (parentD uf e) =
            iterP uf (j + 1) e := by
        intro j hj
        have hoff : ∀ m < j, iterP uf m (parentD uf e) ≠ e := by
          intro m hm heq
          exact path_distinct uf e (k + 1) hr hmin 0 (m + 1) (Nat.succ_pos m)
            (by omega) heq.symm
        exact iterP_setParents_off uf e _ he j (parentD uf e) hoff
      have hppe : parentD (setParents uf e (parentD uf (parentD uf e)))
          (parentD uf e) = parentD uf (parentD uf e) := by
        rw [parentD_setParents uf e _ _ he, if_neg (Ne.symm hne_ep)]
      have hrk2 : isRoot (setParents uf e (parentD uf (parentD uf e)))
          (iterP (setParents uf e (parentD uf (parentD uf e))) k (parentD uf e)) := by
        rw [htrans k (by omega)]
        have hwe : iterP uf (k + 1) e ≠ e := by
          intro h
          exact path_distinct uf e (k + 1) hr hmin 0 (k + 1) (Nat.succ_pos k)
            (le_refl _) h.symm
        exact (isRoot_setParents uf e _ _ he hwe).mpr hr
      have hmin2 : ∀ j < k, ¬ isRoot (setParents uf e (parentD uf (parentD uf e)))
          (iterP (setParents uf e (parentD uf (parentD uf e))) j (parentD uf e)) := by
        intro j hj hcon
        rw [htrans j (by omega)] at hcon
        have hwe : iterP uf (j + 1) e ≠ e := by
          intro h
          exact path_distinct uf e (k + 1) hr hmin 0 (j + 1) (Nat.succ_pos j)
            (by omega) h.symm
        exact hmin (j + 1) (by omega)
          ((isRoot_setParents uf e _ _ he hwe).mp hcon)
      obtain ⟨uf2, heq, hranks, hlenf, hWFf, hrootf, hchar, hframe⟩ :=
        ih (setParents uf e (parentD uf (parentD uf e))) (parentD uf e) f hWF2
          (hlen2 ▸ hp_lt) hrk2 hmin2 (by omega)
      refine ⟨uf2, ?_, ?_, ?_, hWFf, ?_, ?_, ?_⟩
      · have hv : rootOf (setParents uf e (parentD uf (parentD uf e)))
            (parentD uf e) = rootOf uf e := by
          rw [hroots2 (parentD uf e) hp_lt]
          exact rootOf_parentD uf hB e he ⟨k + 1, hr⟩
        rw [hppe] at heq
        rw [findAux_step_some f uf _ e (parentD uf e) _ hne_ep h1 h2, heq, hv]
      · rw [hranks, ranks_setParents]
      · rw [hlenf, hlen2]
      · intro x hx
        rw [hrootf x (hlen2 ▸ hx), hroots2 x hx]
      · intro j hj
        cases j with
        | zero =>
          have hoffe : ∀ j ≤ k,
              e ≠ iterP (setParents uf e (parentD uf (parentD uf e))) j
                (parentD uf e) := by
            intro j hjk
            rw [htrans j (by omega)]
            exact path_distinct uf e (k + 1) hr hmin 0 (j + 1) (Nat.succ_pos j)
              (by omega)
          show parentD uf2 e = iterP uf 2 e
          rw [hframe e (hlen2 ▸ he) hoffe,
            parentD_setParents uf e _ e he, if_pos rfl]
          rfl
        | succ j =>
          have hje : iterP uf (j + 1) e =
              iterP (setParents uf e (parentD uf (parentD uf e))) j
                (parentD uf e) := (htrans j (by omega)).symm
          rw [hje, hchar j (by omega), htrans (j + 2) (by omega)]
      · intro x hx hxoff
        have hxe : x ≠ e := hxoff 0 (Nat.zero_le _)
        have hoff2 : ∀ j ≤ k,
            x ≠ iterP (setParents uf e (parentD uf (parentD uf e))) j
              (parentD uf e) := by
          intro j hjk
          rw [htrans j (by omega)]
          exact hxoff (j + 1) (by omega)
        rw [hframe x (hlen2 ▸ hx) hoff2,
          parentD_setParents uf e _ x he, if_neg hxe]

/-- `find` on a well-formed state: returns the root, touches neither
`ranks` nor `len`, preserves well-formedness and every element's root. -/
theorem find_eq (uf : UnionFind) (e : Nat) (hWF : WF uf) (he : e < uf.len) :
    ∃ uf2, find uf e = some (rootOf uf e, uf2) ∧ uf2.ranks = uf.ranks ∧
      uf2.len = uf.len ∧ WF uf2 ∧ ∀ x < uf.len, rootOf uf2 x = rootOf uf x := by
  obtain ⟨k0, hk0lt, hk0⟩ := hWF.2.2 e he
  have hex : ∃ k, isRoot uf (iterP uf k e) := ⟨k0, hk0⟩
  have hmin : ∀ j < Nat.find hex, ¬ isRoot uf (iterP uf j e) :=
    fun _ hj => Nat.find_min hex hj
  have hklt : Nat.find hex < uf.len :=
    lt_of_le_of_lt (Nat.find_min' hex hk0) hk0lt
  obtain ⟨uf2, heq, hranks, hlen, hwf, hroots, _, _⟩ :=
    findAux_main (Nat.find hex) uf e uf.len hWF he (Nat.find_spec hex) hmin hklt
  refine ⟨uf2, ?_, hranks, hlen, hwf, hroots⟩
  show (match uf.parent e with
    | none => none
    | some par => findAux uf.len uf e par) = _
  rw [parent_eq_parentD uf e he]
  exact heq

/-- `find` on a well-formed state, path-characterized: given the minimal
walk `e, parentD e, …` of length `k` to the root, `find` returns the
root, rewrites each visited node's parent pointer to the node two steps
along the walk, leaves unvisited parent pointers and all ranks alone. -/
theorem find_path (uf : UnionFind) (e k : Nat) (hWF : WF uf) (he : e < uf.len)
    (hk : isRoot uf (iterP uf k e))
    (hmin : ∀ j < k, ¬ isRoot uf (iterP uf j e)) :
    ∃ uf2, find uf e = some (iterP uf k e, uf2) ∧ uf2.ranks = uf.ranks ∧
      (∀ j < k, parentD uf2 (iterP uf j e) = iterP uf (j + 2) e) ∧
      (∀ x < uf.len, (∀ j ≤ k, x ≠ iterP uf j e) →
        parentD uf2 x = parentD uf x) := by
  have hklt : k < uf.len := by
    obtain ⟨k1, hk1lt, hk1⟩ := hWF.2.2 e he
    rcases le_or_lt k k1 with h | h
    · omega
    · exact absurd hk1 (hmin k1 h)
  obtain ⟨uf2, heq, hranks, _, _, _, hchar, hframe⟩ :=
    findAux_main k uf e uf.len hWF he hk hmin hklt
  refine ⟨uf2, ?_, hranks, hchar, hframe⟩
  rw [rootOf_eq_of_isRoot uf hWF.2.1 e k he hk] at heq
  show (match uf.parent e with
    | none => none
    | some par => findAux uf.len uf e par) = _
  rw [parent_eq_parentD uf e he]
  exact heq

theorem set_parent_some (uf uf2 : UnionFind) (x q : Nat)
    (h : uf.set_parent x q = some uf2) : uf2 = setParents uf x q := by
  unfold set_parent at h
  by_cases hx : x < uf.parents.length
  · rw [if_pos hx] at h
    exact (Option.some_inj.mp h).symm
  · rw [if_neg hx] at h
    exact absurd h (by simp)

theorem findAux_parent_none (fuel : Nat) (uf : UnionFind) (element par : Nat)
    (hne : element ≠ par) (h1 : uf.parent par = none) :
    findAux (fuel + 1) uf element par = none := by
  simp [findAux, hne, h1]

theorem findAux_set_none (fuel : Nat) (uf : UnionFind) (element par next : Nat)
    (hne : element ≠ par) (h1 : uf.parent par = some next)
    (h2 : uf.set_parent element next = none) :
    findAux (fuel + 1) uf element par = none := by
  simp [findAux, hne, h1, h2]

theorem findAux_frame : ∀ fuel (uf : UnionFind) element par r uf2,
    findAux fuel uf element par = some (r, uf2) →
    uf2.parents.length = uf.parents.length ∧ uf2.ranks = uf.ranks := by
  intro fuel
  induction fuel with
  | zero => intro uf element par r uf2 h; exact absurd h (by simp [findAux])
  | succ f ih =>
    intro uf element par r uf2 h
    by_cases hep : element = par
    · rw [hep, findAux_root] at h
      simp only [Option.some_inj, Prod.mk.injEq] at h
      rw [← h.2]
      exact ⟨rfl, rfl⟩
    · cases h1 : uf.parent par with
      | none =>
        rw [findAux_parent_none f uf element par hep h1] at h
        exact absurd h (by simp)
      | some next =>
        cases h2 : uf.set_parent element next with
        | none =>
          rw [findAux_set_none f uf element par next hep h1 h2] at h
          exact absurd h (by simp)
        | some ufm =>
          rw [findAux_step_some f uf ufm element par next hep h1 h2] at h
          obtain ⟨hl, hr⟩ := ih ufm par next r uf2 h
          rw [set_parent_some uf ufm element next h2] at hl hr
          exact ⟨by rw [hl]; simp [setParents], hr⟩

theorem find_some_facts (uf uf2 : UnionFind) (e r : Nat)
    (h : find uf e = some (r, uf2)) :
    e < uf.len ∧ uf2.parents.length = uf.parents.length ∧
      uf2.ranks = uf.ranks := by
  have he : e < uf.len := by
    by_contra hc
    push_neg at hc
    unfold find at h
    rw [parent_none uf e hc] at h
    exact absurd h (by simp)
  unfold find at h
  rw [parent_eq_parentD uf e he] at h
  exact ⟨he, findAux_frame uf.len uf e (parentD uf e) r uf2 h⟩

theorem find_oob (uf : UnionFind) (e : Nat) (h : uf.len ≤ e) :
    find uf e = none := by
  unfold find
  rw [parent_none uf e h]

theorem len_with_size (n : Nat) : (with_size n).len = n := by
  simp [with_size, len]

theorem parentD_with_size (n i : Nat) (h : i < n) :
    parentD (with_size n) i = i := by
  simp [parentD, with_size, List.getElem?_range h]

theorem WF_with_size (n : Nat) : WF (with_size n) := by
  refine ⟨by simp [with_size], ?_, ?_⟩
  · intro i hi
    rw [len_with_size] at hi ⊢
    rw [parentD_with_size n i hi]
    exact hi
  · intro i hi
    rw [len_with_size] at hi ⊢
    exact ⟨0, by omega, parentD_with_size n i hi⟩

theorem len_with_ranks (ranks : List Nat) :
    (with_ranks ranks).len = ranks.length := by
  simp [with_ranks, len]

theorem parentD_with_ranks (ranks : List Nat) (i : Nat) (h : i < ranks.length) :
    parentD (with_ranks ranks) i = i := by
  simp [parentD, with_ranks, List.getElem?_range h]

theorem WF_with_ranks (ranks : List Nat) : WF (with_ranks ranks) := by
  refine ⟨by simp [with_ranks], ?_, ?_⟩
  · intro i hi
    rw [len_with_ranks] at hi ⊢
    rw [parentD_with_ranks ranks i hi]
    exact hi
  · intro i hi
    rw [len_with_ranks] at hi ⊢
    exact ⟨0, by omega, parentD_with_ranks ranks i hi⟩

theorem len_extend (uf : UnionFind) (k : Nat) :
    (extend uf k).len = uf.len + k := by
  simp [extend, len]

theorem extend_zero (uf : UnionFind) : extend uf 0 = uf := by
  cases uf
  simp [extend]

theorem parentD_extend_lt (uf : UnionFind) (k i : Nat) (h : i < uf.len) :
    parentD (extend uf k) i = parentD uf i := by
  simp [parentD, extend,
    List.getElem?_append_left (show i < uf.parents.length from h)]

theorem parentD_extend_ge (uf : UnionFind) (k i : Nat) (h1 : uf.len ≤ i)
    (h2 : i < uf.len + k) : parentD (extend uf k) i = i := by
  unfold parentD extend
  rw [List.getElem?_append_right (show uf.parents.length ≤ i from h1),
    List.getElem?_range' uf.parents.length 1
      (show i - uf.parents.length < k by
        have : uf.parents.length = uf.len := rfl
        omega)]
  show uf.parents.length + 1 * (i - uf.parents.length) = i
  have : uf.parents.length = uf.len := rfl
  omega

theorem rankD_extend_lt (uf : UnionFind) (k i : Nat) (h : i < uf.ranks.length) :
    rankD (extend uf k) i = rankD uf i := by
  simp [rankD, extend, List.getElem?_append_left h]

theorem rankD_extend_ge (uf : UnionFind) (k i : Nat) (h1 : uf.ranks.length ≤ i)
    (h2 : i < uf.ranks.length + k) : rankD (extend uf k) i = 0 := by
  unfold rankD extend
  rw [List.getElem?_append_right (show uf.ranks.length ≤ i from h1),
    List.getElem?_replicate_of_lt (by omega)]
  rfl

theorem iterP_extend (uf : UnionFind) (k : Nat)
    (hB : ∀ i < uf.len, parentD uf i < uf.len) :
    ∀ m i, i < uf.len → iterP (extend uf k) m i = iterP uf m i := by
  intro m
  induction m with
  | zero => intro i _; rfl
  | succ m ih =>
    intro i hi
    show iterP (extend uf k) m (parentD (extend uf k) i) = iterP uf m (parentD uf i)
    rw [parentD_extend_lt uf k i hi]
    exact ih (parentD uf i) (hB i hi)

theorem WF_extend (uf : UnionFind) (k : Nat) (hWF : WF uf) :
    WF (extend uf k) := by
  obtain ⟨hlen, hB, hR⟩ := hWF
  have hlen2 : (extend uf k).len = uf.len + k := len_extend uf k
  refine ⟨?_, ?_, ?_⟩
  · simp [extend, hlen]
  · intro i hi
    rw [hlen2] at hi ⊢
    rcases lt_or_le i uf.len with h | h
    · rw [parentD_extend_lt uf k i h]
      exact lt_of_lt_of_le (hB i h) (by omega)
    · rw [parentD_extend_ge uf k i h hi]
      exact hi
  · intro i hi
    rw [hlen2] at hi ⊢
    rcases lt_or_le i uf.len with h | h
    · obtain ⟨j, hjlt, hj⟩ := hR i h
      refine ⟨j, by omega, ?_⟩
      rw [iterP_extend uf k hB j i h]
      show parentD (extend uf k) (iterP uf j i) = iterP uf j i
      rw [parentD_extend_lt uf k _ (iterP_lt uf hB i h j)]
      exact hj
    · exact ⟨0, by omega, parentD_extend_ge uf k i h hi⟩

theorem rootOf_extend (uf : UnionFind) (k i : Nat) (hWF : WF uf)
    (hi : i < uf.len) : rootOf (extend uf k) i = rootOf uf i := by
  obtain ⟨hlen, hB, hR⟩ := hWF
  show iterP (extend uf k) (extend uf k).len i = rootOf uf i
  rw [iterP_extend uf k hB _ i hi]
  obtain ⟨k1, hk1lt, hk1⟩ := hR i hi
  rw [iterP_stable uf k1 ((extend uf k).len) i hk1 (by rw [len_extend]; omega),
    rootOf_eq_of_isRoot uf hB i k1 hi hk1]

theorem rank_get (uf : UnionFind) (x : Nat) (hlen : uf.ranks.length = uf.parents.length)
    (hx : x < uf.len) : uf.ranks[x]? = some (rankD uf x) := by
  have h : x < uf.ranks.length := by rw [hlen]; exact hx
  simp [rankD, List.getElem?_eq_getElem h]

theorem increment_rank_eq (uf : UnionFind) (x : Nat) (h : x < uf.ranks.length) :
    increment_rank uf x =
      some { uf with ranks := uf.ranks.set x (saturating_add (rankD uf x) 1) } := by
  unfold increment_rank
  rw [List.getElem?_eq_getElem h]
  simp [rankD, List.getElem?_eq_getElem h]

theorem parents_congr (uf uf2 : UnionFind) (hp : uf2.parents = uf.parents) :
    uf2.len = uf.len ∧ (∀ i, parentD uf2 i = parentD uf i) ∧
      (∀ k i, iterP uf2 k i = iterP uf k i) ∧
      ∀ i, rootOf uf2 i = rootOf uf i := by
  have hlen : uf2.len = uf.len := by unfold len; rw [hp]
  have hpd : ∀ i, parentD uf2 i = parentD uf i := by
    intro i
    unfold parentD
    rw [hp]
  have hiter : ∀ k i, iterP uf2 k i = iterP uf k i := by
    intro k
    induction k with
    | zero => intro i; rfl
    | succ k ih =>
      intro i
      show iterP uf2 k (parentD uf2 i) = iterP uf k (parentD uf i)
      rw [hpd i]
      exact ih (parentD uf i)
  exact ⟨hlen, hpd, hiter, fun i => by unfold rootOf; rw [hlen, hiter]⟩

theorem WF_parents_congr (uf uf2 : UnionFind) (hp : uf2.parents = uf.parents)
    (hl : uf2.ranks.length = uf.ranks.length) (h : WF uf) : WF uf2 := by
  obtain ⟨hlen, hB, hR⟩ := h
  obtain ⟨hlen2, hpd, hiter, _⟩ := parents_congr uf uf2 hp
  refine ⟨by rw [hl, hp]; exact hlen, ?_, ?_⟩
  · intro i hi
    rw [hlen2] at hi ⊢
    rw [hpd i]
    exact hB i hi
  · intro i hi
    rw [hlen2] at hi ⊢
    obtain ⟨k, hklt, hk⟩ := hR i hi
    refine ⟨k, hklt, ?_⟩
    show parentD uf2 (iterP uf2 k i) = iterP uf2 k i
    rw [hiter k i, hpd]
    exact hk

/-- `union` when the two roots coincide: returns `false`; ranks, length,
well-formedness and the partition (every element's root) are unchanged —
though parent pointers may have been rewritten by path compression. -/
theorem union_same (uf : UnionFind) (a b : Nat) (hWF : WF uf) (ha : a < uf.len)
    (hb : b < uf.len) (hroots : rootOf uf a = rootOf uf b) :
    ∃ uf2, union uf a b = some (false, uf2) ∧ uf2.ranks = uf.ranks ∧
      uf2.len = uf.len ∧ WF uf2 ∧ ∀ x < uf.len, rootOf uf2 x = rootOf uf x := by
  obtain ⟨uf1, hf1, hranks1, hlen1, hWF1, hroots1⟩ := find_eq uf a hWF ha
  obtain ⟨uf2, hf2, hranks2, hlen2, hWF2, hroots2⟩ :=
    find_eq uf1 b hWF1 (by omega)
  rw [hroots1 b hb] at hf2
  refine ⟨uf2, ?_, hranks2.trans hranks1, by omega, hWF2, ?_⟩
  · simp only [union, hf1, hf2]
    rw [if_pos hroots]
  · intro x hx
    rw [hroots2 x (by omega), hroots1 x hx]

/-- `union` when the two roots differ: merges by rank and returns `true`.
The three cases of `rank_a.cmp(&rank_b)` are characterized separately:
which root's parent pointer is rewritten to which, what happens to
`ranks`, and how every element's root is remapped. -/
theorem union_diff (uf : UnionFind) (a b : Nat) (hWF : WF uf) (ha : a < uf.len)
    (hb : b < uf.len) (hne : rootOf uf a ≠ rootOf uf b) :
    ∃ uf3, union uf a b = some (true, uf3) ∧ uf3.len = uf.len ∧ WF uf3 ∧
      ((rankD uf (rootOf uf b) < rankD uf (rootOf uf a) →
        parentD uf3 (rootOf uf b) = rootOf uf a ∧ uf3.ranks = uf.ranks ∧
        ∀ x < uf.len, rootOf uf3 x =
          (if rootOf uf x = rootOf uf b then rootOf uf a else rootOf uf x)) ∧
      (rankD uf (rootOf uf a) < rankD uf (rootOf uf b) →
        parentD uf3 (rootOf uf a) = rootOf uf b ∧ uf3.ranks = uf.ranks ∧
        ∀ x < uf.len, rootOf uf3 x =
          (if rootOf uf x = rootOf uf a then rootOf uf b else rootOf uf x)) ∧
      (rankD uf (rootOf uf a) = rankD uf (rootOf uf b) →
        parentD uf3 (rootOf uf a) = rootOf uf b ∧
        uf3.ranks = uf.ranks.set (rootOf uf b)
          (saturating_add (rankD uf (rootOf uf b)) 1) ∧
        ∀ x < uf.len, rootOf uf3 x =
          (if rootOf uf x = rootOf uf a then rootOf uf b else rootOf uf x))) := by
  obtain ⟨uf1, hf1, hranks1, hlen1, hWF1, hroots1⟩ := find_eq uf a hWF ha
  obtain ⟨uf2, hf2, hranks2, hlen2, hWF2, hroots2⟩ :=
    find_eq uf1 b hWF1 (by omega)
  rw [hroots1 b hb] at hf2
  have hranksC : uf2.ranks = uf.ranks := hranks2.trans hranks1
  have hlenC : uf2.len = uf.len := by omega
  have hrootsC : ∀ x < uf.len, rootOf uf2 x = rootOf uf x := by
    intro x hx
    rw [hroots2 x (by omega), hroots1 x hx]
  have hra : rootOf uf a < uf.len := rootOf_lt uf hWF.2.1 a ha
  have hrb : rootOf uf b < uf.len := rootOf_lt uf hWF.2.1 b hb
  have hra_root : isRoot uf2 (rootOf uf a) := by
    rw [show rootOf uf a = rootOf uf2 a from (hrootsC a ha).symm]
    refine isRoot_rootOf uf2 hWF2.2.1 a (by omega) ?_
    obtain ⟨k, _, hk⟩ := hWF2.2.2 a (by omega)
    exact ⟨k, hk⟩
  have hrb_root : isRoot uf2 (rootOf uf b) := by
    rw [show rootOf uf b = rootOf uf2 b from (hrootsC b hb).symm]
    refine isRoot_rootOf uf2 hWF2.2.1 b (by omega) ?_
    obtain ⟨k, _, hk⟩ := hWF2.2.2 b (by omega)
    exact ⟨k, hk⟩
  have hga : uf2.ranks[rootOf uf a]? = some (rankD uf (rootOf uf a)) := by
    rw [hranksC]
    rw [show rankD uf (rootOf uf a) = rankD uf (rootOf uf a) from rfl]
    exact rank_get uf (rootOf uf a) hWF.1 hra
  have hgb : uf2.ranks[rootOf uf b]? = some (rankD uf (rootOf uf b)) := by
    rw [hranksC]
    exact rank_get uf (rootOf uf b) hWF.1 hrb
  rcases Nat.lt_trichotomy (rankD uf (rootOf uf a)) (rankD uf (rootOf uf b))
    with hcmp | hcmp | hcmp
  · -- Less: a-root attached under b-root
    have hsp : uf2.set_parent (rootOf uf a) (rootOf uf b) =
        some (setParents uf2 (rootOf uf a) (rootOf uf b)) :=
      set_parent_eq uf2 _ _ (by omega)
    obtain ⟨hWF3, hremap⟩ := WF_attach uf2 (rootOf uf a) (rootOf uf b) hWF2
      (by omega) (by omega) hra_root hrb_root hne
    refine ⟨setParents uf2 (rootOf uf a) (rootOf uf b), ?_, ?_, hWF3, ?_, ?_, ?_⟩
    · simp only [union, hf1, hf2]
      rw [if_neg hne, hga, hgb]
      simp only [if_neg (Nat.lt_asymm hcmp), if_pos hcmp, hsp]
    · rw [len_setParents]
      omega
    · intro h
      omega
    · intro _
      refine ⟨?_, ?_, ?_⟩
      · rw [parentD_setParents uf2 _ _ _ (by omega), if_pos rfl]
      · rw [ranks_setParents, hranksC]
      · intro x hx
        rw [hremap x (by omega), hrootsC x hx]
    · intro h
      omega
  · -- Equal: a-root attached under b-root, b-root's rank incremented
    have hsp : uf2.set_parent (rootOf uf a) (rootOf uf b) =
        some (setParents uf2 (rootOf uf a) (rootOf uf b)) :=
      set_parent_eq uf2 _ _ (by omega)
    obtain ⟨hWF3, hremap⟩ := WF_attach uf2 (rootOf uf a) (rootOf uf b) hWF2
      (by omega) (by omega) hra_root hrb_root hne
    have hrbl : rootOf uf b < (setParents uf2 (rootOf uf a) (rootOf uf b)).ranks.length := by
      rw [ranks_setParents, hranksC, hWF.1]
      exact hrb
    have hinc : increment_rank (setParents uf2 (rootOf uf a) (rootOf uf b))
        (rootOf uf b) = some { setParents uf2 (rootOf uf a) (rootOf uf b) with
          ranks := (setParents uf2 (rootOf uf a) (rootOf uf b)).ranks.set
            (rootOf uf b) (saturating_add
              (rankD (setParents uf2 (rootOf uf a) (rootOf uf b)) (rootOf uf b)) 1) } :=
      increment_rank_eq _ _ hrbl
    have hrkD : rankD (setParents uf2 (rootOf uf a) (rootOf uf b)) (rootOf uf b) =
        rankD uf (rootOf uf b) := by
      unfold rankD
      rw [ranks_setParents, hranksC]
    refine ⟨{ setParents uf2 (rootOf uf a) (rootOf uf b) with
        ranks := (setParents uf2 (rootOf uf a) (rootOf uf b)).ranks.set
          (rootOf uf b) (saturating_add
            (rankD (setParents uf2 (rootOf uf a) (rootOf uf b)) (rootOf uf b)) 1) },
      ?_, ?_, ?_, ?_, ?_, ?_⟩
    · simp only [union, hf1, hf2]
      rw [if_neg hne, hga, hgb]
      simp only [hsp, hinc]
      rw [if_neg (show ¬ rankD uf (rootOf uf b) < rankD uf (rootOf uf a) by omega),
        if_neg (show ¬ rankD uf (rootOf uf a) < rankD uf (rootOf uf b) by omega)]
    · show ({ setParents uf2 (rootOf uf a) (rootOf uf b) with
        ranks := _ } : UnionFind).len = uf.len
      show (setParents uf2 (rootOf uf a) (rootOf uf b)).parents.length = uf.len
      rw [show (setParents uf2 (rootOf uf a) (rootOf uf b)).parents.length =
        (setParents uf2 (rootOf uf a) (rootOf uf b)).len from rfl, len_setParents]
      omega
    · refine WF_parents_congr (setParents uf2 (rootOf uf a) (rootOf uf b)) _ rfl
        (by simp) hWF3
    · intro h
      omega
    · intro h
      omega
    · intro _
      obtain ⟨_, hpd, _, hroot⟩ := parents_congr
        (setParents uf2 (rootOf uf a) (rootOf uf b))
        { setParents uf2 (rootOf uf a) (rootOf uf b) with
          ranks := (setParents uf2 (rootOf uf a) (rootOf uf b)).ranks.set
            (rootOf uf b) (saturating_add
              (rankD (setParents uf2 (rootOf uf a) (rootOf uf b)) (rootOf uf b)) 1) }
        rfl
      refine ⟨?_, ?_, ?_⟩
      · rw [hpd, parentD_setParents uf2 _ _ _ (by omega), if_pos rfl]
      · show (setParents uf2 (rootOf uf a) (rootOf uf b)).ranks.set
          (rootOf uf b) _ = _
        rw [ranks_setParents, hranksC, hrkD]
      · intro x hx
        rw [hroot x, hremap x (by omega), hrootsC x hx]
  · -- Greater: b-root attached under a-root
    have hsp : uf2.set_parent (rootOf uf b) (rootOf uf a) =
        some (setParents uf2 (rootOf uf b) (rootOf uf a)) :=
      set_parent_eq uf2 _ _ (by omega)
    obtain ⟨hWF3, hremap⟩ := WF_attach uf2 (rootOf uf b) (rootOf uf a) hWF2
      (by omega) (by omega) hrb_root hra_root (Ne.symm hne)
    refine ⟨setParents uf2 (rootOf uf b) (rootOf uf a), ?_, ?_, hWF3, ?_, ?_, ?_⟩
    · simp only [union, hf1, hf2]
      rw [if_neg hne, hga, hgb]
      simp only [if_pos hcmp, hsp]
    · rw [len_setParents]
      omega
    · intro _
      refine ⟨?_, ?_, ?_⟩
      · rw [parentD_setParents uf2 _ _ _ (by omega), if_pos rfl]
      · rw [ranks_setParents, hranksC]
      · intro x hx
        rw [hremap x (by omega), hrootsC x hx]
    · intro h
      omega
    · intro h
      omega

/-- `in_same_set` on a well-formed state returns whether the two roots
coincide, and only compresses paths (partition, ranks, length preserved). -/
theorem in_same_set_spec (uf : UnionFind) (a b : Nat) (hWF : WF uf)
    (ha : a < uf.len) (hb : b < uf.len) :
    ∃ uf2, in_same_set uf a b = some ((rootOf uf a == rootOf uf b), uf2) ∧
      uf2.ranks = uf.ranks ∧ uf2.len = uf.len ∧ WF uf2 ∧
      ∀ x < uf.len, rootOf uf2 x = rootOf uf x := by
  obtain ⟨uf1, hf1, hranks1, hlen1, hWF1, hroots1⟩ := find_eq uf a hWF ha
  obtain ⟨uf2, hf2, hranks2, hlen2, hWF2, hroots2⟩ :=
    find_eq uf1 b hWF1 (by omega)
  rw [hroots1 b hb] at hf2
  refine ⟨uf2, ?_, hranks2.trans hranks1, by omega, hWF2, ?_⟩
  · simp only [in_same_set, hf1, hf2]
  · intro x hx
    rw [hroots2 x (by omega), hroots1 x hx]

theorem find_wf (uf uf' : UnionFind) (e r : Nat) (hWF : WF uf)
    (h : find uf e = some (r, uf')) :
    WF uf' ∧ uf'.len = uf.len ∧ ∀ x < uf.len, rootOf uf' x = rootOf uf x := by
  have he : e < uf.len := (find_some_facts uf uf' e r h).1
  obtain ⟨uf2, heq, _, hlen, hWF2, hroots⟩ := find_eq uf e hWF he
  rw [heq] at h
  simp only [Option.some_inj, Prod.mk.injEq] at h
  rw [← h.2]
  exact ⟨hWF2, hlen, hroots⟩

theorem union_wf (uf uf' : UnionFind) (a b : Nat) (flag : Bool) (hWF : WF uf)
    (h : union uf a b = some (flag, uf')) : WF uf' ∧ uf'.len = uf.len := by
  have ha : a < uf.len := by
    by_contra hc
    push_neg at hc
    rw [show union uf a b = none by simp [union, find_oob uf a hc]] at h
    exact absurd h (by simp)
  obtain ⟨uf1, hf1, _, hlen1, hWF1, _⟩ := find_eq uf a hWF ha
  have hb : b < uf.len := by
    by_contra hc
    push_neg at hc
    rw [show union uf a b = none by
      simp [union, hf1, find_oob uf1 b (by omega)]] at h
    exact absurd h (by simp)
  rcases eq_or_ne (rootOf uf a) (rootOf uf b) with he | hne
  · obtain ⟨uf2, hu, _, hlen, hWF2, _⟩ := union_same uf a b hWF ha hb he
    rw [hu] at h
    simp only [Option.some_inj, Prod.mk.injEq] at h
    rw [← h.2]
    exact ⟨hWF2, hlen⟩
  · obtain ⟨uf3, hu, hlen, hWF3, _⟩ := union_diff uf a b hWF ha hb hne
    rw [hu] at h
    simp only [Option.some_inj, Prod.mk.injEq] at h
    rw [← h.2]
    exact ⟨hWF3, hlen⟩

theorem in_same_set_wf (uf uf' : UnionFind) (a b : Nat) (flag : Bool)
    (hWF : WF uf) (h : in_same_set uf a b = some (flag, uf')) :
    WF uf' ∧ uf'.len = uf.len := by
  have ha : a < uf.len := by
    by_contra hc
    push_neg at hc
    rw [show in_same_set uf a b = none by
      simp [in_same_set, find_oob uf a hc]] at h
    exact absurd h (by simp)
  obtain ⟨uf1, hf1, _, hlen1, hWF1, _⟩ := find_eq uf a hWF ha
  have hb : b < uf.len := by
    by_contra hc
    push_neg at hc
    rw [show in_same_set uf a b = none by
      simp [in_same_set, hf1, find_oob uf1 b (by omega)]] at h
    exact absurd h (by simp)
  obtain ⟨uf2, hu, _, hlen, hWF2, _⟩ := in_same_set_spec uf a b hWF ha hb
  rw [hu] at h
  simp only [Option.some_inj, Prod.mk.injEq] at h
  rw [← h.2]
  exact ⟨hWF2, hlen⟩

theorem union_oob_left (uf : UnionFind) (a b : Nat) (h : uf.len ≤ a) :
    union uf a b = none := by
  simp [union, find_oob uf a h]

theorem union_oob_right (uf : UnionFind) (a b : Nat) (h : uf.len ≤ b) :
    union uf a b = none := by
  cases h1 : uf.find a with
  | none => simp [union, h1]
  | some p =>
    obtain ⟨ra, uf1⟩ := p
    have hlen1 : uf1.len = uf.len := (find_some_facts uf uf1 a ra h1).2.1
    simp [union, h1, find_oob uf1 b (by omega)]

theorem in_same_set_oob_left (uf : UnionFind) (a b : Nat) (h : uf.len ≤ a) :
    in_same_set uf a b = none := by
  simp [in_same_set, find_oob uf a h]

theorem in_same_set_oob_right (uf : UnionFind) (a b : Nat) (h : uf.len ≤ b) :
    in_same_set uf a b = none := by
  cases h1 : uf.find a with
  | none => simp [in_same_set, h1]
  | some p =>
    obtain ⟨ra, uf1⟩ := p
    have hlen1 : uf1.len = uf.len := (find_some_facts uf uf1 a ra h1).2.1
    simp [in_same_set, h1, find_oob uf1 b (by omega)]

/-- The only way `union` changes `ranks`: either not at all, or a single
saturating increment of one existing entry. Holds on any state. -/
theorem union_ranks_cases (uf uf' : UnionFind) (a b : Nat) (flag : Bool)
    (h : union uf a b = some (flag, uf')) :
    uf'.ranks = uf.ranks ∨ ∃ rep r, uf.ranks[rep]? = some r ∧
      uf'.ranks = uf.ranks.set rep (saturating_add r 1) := by
  cases h1 : uf.find a with
  | none => rw [show union uf a b = none by simp [union, h1]] at h; exact absurd h (by simp)
  | some p1 =>
    obtain ⟨ra, uf1⟩ := p1
    have hr1 : uf1.ranks = uf.ranks := (find_some_facts uf uf1 a ra h1).2.2
    cases h2 : uf1.find b with
    | none =>
      rw [show union uf a b = none by simp [union, h1, h2]] at h
      exact absurd h (by simp)
    | some p2 =>
      obtain ⟨rb, uf2⟩ := p2
      have hr2 : uf2.ranks = uf1.ranks := (find_some_facts uf1 uf2 b rb h2).2.2
      by_cases hrr : ra = rb
      · left
        simp only [union, h1, h2, if_pos hrr] at h
        simp only [Option.some_inj, Prod.mk.injEq] at h
        rw [← h.2, hr2, hr1]
      · simp only [union, h1, h2, if_neg hrr] at h
        cases h3 : uf2.ranks[ra]? with
        | none => simp only [h3] at h; exact absurd h (by simp)
        | some rank_a =>
          simp only [h3] at h
          cases h4 : uf2.ranks[rb]? with
          | none => simp only [h4] at h; exact absurd h (by simp)
          | some rank_b =>
            simp only [h4] at h
            by_cases hlt1 : rank_b < rank_a
            · left
              rw [if_pos hlt1] at h
              cases h5 : uf2.set_parent rb ra with
              | none => simp only [h5] at h; exact absurd h (by simp)
              | some uf3 =>
                simp only [h5, Option.some_inj, Prod.mk.injEq] at h
                rw [← h.2, set_parent_some uf2 uf3 rb ra h5, ranks_setParents,
                  hr2, hr1]
            · rw [if_neg hlt1] at h
              by_cases hlt2 : rank_a < rank_b
              · left
                rw [if_pos hlt2] at h
                cases h5 : uf2.set_parent ra rb with
                | none => simp only [h5] at h; exact absurd h (by simp)
                | some uf3 =>
                  simp only [h5, Option.some_inj, Prod.mk.injEq] at h
                  rw [← h.2, set_parent_some uf2 uf3 ra rb h5, ranks_setParents,
                    hr2, hr1]
              · rw [if_neg hlt2] at h
                cases h5 : uf2.set_parent ra rb with
                | none => simp only [h5] at h; exact absurd h (by simp)
                | some uf3 =>
                  simp only [h5] at h
                  have hr3 : uf3.ranks = uf.ranks := by
                    rw [set_parent_some uf2 uf3 ra rb h5, ranks_setParents,
                      hr2, hr1]
                  cases h6 : uf3.increment_rank rb with
                  | none => simp only [h6] at h; exact absurd h (by simp)
                  | some uf4 =>
                    simp only [h6, Option.some_inj, Prod.mk.injEq] at h
                    unfold increment_rank at h6
                    cases h7 : uf3.ranks[rb]? with
                    | none => rw [h7] at h6; exact absurd h6 (by simp)
                    | some rv =>
                      rw [h7] at h6
                      simp only [Option.some_inj] at h6
                      right
                      refine ⟨rb, rv, by rw [← hr3]; exact h7, ?_⟩
                      rw [← h.2, ← h6]
                      show uf3.ranks.set rb (saturating_add rv 1) = _
                      rw [hr3]

/-- States reachable through the public constructors and operations of
`UnionFind` (`with_size`, `with_ranks`, `extend`, `union`, `find`,
`in_same_set`). -/
inductive Reachable : UnionFind → Prop where
  | with_size_r (n : Nat) : Reachable (with_size n)
  | with_ranks_r (rs : List Nat) : Reachable (with_ranks rs)
  | extend_r (uf : UnionFind) (k : Nat) : Reachable uf → Reachable (extend uf k)
  | union_r (uf uf' : UnionFind) (a b : Nat) (flag : Bool) :
      Reachable uf → union uf a b = some (flag, uf') → Reachable uf'
  | find_r (uf uf' : UnionFind) (e r : Nat) :
      Reachable uf → find uf e = some (r, uf') → Reachable uf'
  | in_same_set_r (uf uf' : UnionFind) (a b : Nat) (flag : Bool) :
      Reachable uf → in_same_set uf a b = some (flag, uf') → Reachable uf'

/-- Every reachable state satisfies the forest invariant. -/
theorem reachable_wf (uf : UnionFind) (h : Reachable uf) : WF uf := by
  induction h with
  | with_size_r n => exact WF_with_size n
  | with_ranks_r rs => exact WF_with_ranks rs
  | extend_r uf k _ ih => exact WF_extend uf k ih
  | union_r uf ufp a b flag _ heq ih => exact (union_wf uf ufp a b flag ih heq).1
  | find_r uf ufp e r _ heq ih => exact (find_wf uf ufp e r ih heq).1
  | in_same_set_r uf ufp a b flag _ heq ih =>
    exact (in_same_set_wf uf ufp a b flag ih heq).1

/-! ## Claim theorems -/

/-- C1: the concrete scenario. Starting from `with_size 7` then `extend 1`,
`len` is 8; `union(0,1)`, `union(1,2)`, `union(4,3)`, `union(3,2)` each
return `true` and `union(0,3)` returns `false`; then `in_same_set(0,1)`,
`(0,2)`, `(0,3)`, `(0,4)` are all `true` and `(0,5)` is `false`; after
`union(5,3)`, `in_same_set(0,5)` is `true`; `union(6,7)` returns `true`,
`in_same_set(6,7)` is `true` and `in_same_set(5,7)` is `false`; after
`union(0,7)` (which returns `true`), `in_same_set(5,7)` is `true`.  Each
step is stated against the explicit intermediate state it produces. -/
theorem claim_C1_scenario :
    extend (with_size 7) 1 =
      ⟨[0, 1, 2, 3, 4, 5, 6, 7], [0, 0, 0, 0, 0, 0, 0, 0]⟩ ∧
    (⟨[0, 1, 2, 3, 4, 5, 6, 7], [0, 0, 0, 0, 0, 0, 0, 0]⟩ : UnionFind).len = 8 ∧
    union ⟨[0, 1, 2, 3, 4, 5, 6, 7], [0, 0, 0, 0, 0, 0, 0, 0]⟩ 0 1 =
      some (true, ⟨[1, 1, 2, 3, 4, 5, 6, 7], [0, 1, 0, 0, 0, 0, 0, 0]⟩) ∧
    union ⟨[1, 1, 2, 3, 4, 5, 6, 7], [0, 1, 0, 0, 0, 0, 0, 0]⟩ 1 2 =
      some (true, ⟨[1, 1, 1, 3, 4, 5, 6, 7], [0, 1, 0, 0, 0, 0, 0, 0]⟩) ∧
    union ⟨[1, 1, 1, 3, 4, 5, 6, 7], [0, 1, 0, 0, 0, 0, 0, 0]⟩ 4 3 =
      some (true, ⟨[1, 1, 1, 3, 3, 5, 6, 7], [0, 1, 0, 1, 0, 0, 0, 0]⟩) ∧
    union ⟨[1, 1, 1, 3, 3, 5, 6, 7], [0, 1, 0, 1, 0, 0, 0, 0]⟩ 3 2 =
      some (true, ⟨[1, 1, 1, 1, 3, 5, 6, 7], [0, 2, 0, 1, 0, 0, 0, 0]⟩) ∧
    union ⟨[1, 1, 1, 1, 3, 5, 6, 7], [0, 2, 0, 1, 0, 0, 0, 0]⟩ 0 3 =
      some (false, ⟨[1, 1, 1, 1, 3, 5, 6, 7], [0, 2, 0, 1, 0, 0, 0, 0]⟩) ∧
    in_same_set ⟨[1, 1, 1, 1, 3, 5, 6, 7], [0, 2, 0, 1, 0, 0, 0, 0]⟩ 0 1 =
      some (true, ⟨[1, 1, 1, 1, 3, 5, 6, 7], [0, 2, 0, 1, 0, 0, 0, 0]⟩) ∧
    in_same_set ⟨[1, 1, 1, 1, 3, 5, 6, 7], [0, 2, 0, 1, 0, 0, 0, 0]⟩ 0 2 =
      some (true, ⟨[1, 1, 1, 1, 3, 5, 6, 7], [0, 2, 0, 1, 0, 0, 0, 0]⟩) ∧
    in_same_set ⟨[1, 1, 1, 1, 3, 5, 6, 7], [0, 2, 0, 1, 0, 0, 0, 0]⟩ 0 3 =
      some (true, ⟨[1, 1, 1, 1, 3, 5, 6, 7], [0, 2, 0, 1, 0, 0, 0, 0]⟩) ∧
    in_same_set ⟨[1, 1, 1, 1, 3, 5, 6, 7], [0, 2, 0, 1, 0, 0, 0, 0]⟩ 0 4 =
      some (true, ⟨[1, 1, 1, 1, 1, 5, 6, 7], [0, 2, 0, 1, 0, 0, 0, 0]⟩) ∧
    in_same_set ⟨[1, 1, 1, 1, 1, 5, 6, 7], [0, 2, 0, 1, 0, 0, 0, 0]⟩ 0 5 =
      some (false, ⟨[1, 1, 1, 1, 1, 5, 6, 7], [0, 2, 0, 1, 0, 0, 0, 0]⟩) ∧
    union ⟨[1, 1, 1, 1, 1, 5, 6, 7], [0, 2, 0, 1, 0, 0, 0, 0]⟩ 5 3 =
      some (true, ⟨[1, 1, 1, 1, 1, 1, 6, 7], [0, 2, 0, 1, 0, 0, 0, 0]⟩) ∧
    in_same_set ⟨[1, 1, 1, 1, 1, 1, 6, 7], [0, 2, 0, 1, 0, 0, 0, 0]⟩ 0 5 =
      some (true, ⟨[1, 1, 1, 1, 1, 1, 6, 7], [0, 2, 0, 1, 0, 0, 0, 0]⟩) ∧
    union ⟨[1, 1, 1, 1, 1, 1, 6, 7], [0, 2, 0, 1, 0, 0, 0, 0]⟩ 6 7 =
      some (true, ⟨[1, 1, 1, 1, 1, 1, 7, 7], [0, 2, 0, 1, 0, 0, 0, 1]⟩) ∧
    in_same_set ⟨[1, 1, 1, 1, 1, 1, 7, 7], [0, 2, 0, 1, 0, 0, 0, 1]⟩ 6 7 =
      some (true, ⟨[1, 1, 1, 1, 1, 1, 7, 7], [0, 2, 0, 1, 0, 0, 0, 1]⟩) ∧
    in_same_set ⟨[1, 1, 1, 1, 1, 1, 7, 7], [0, 2, 0, 1, 0, 0, 0, 1]⟩ 5 7 =
      some (false, ⟨[1, 1, 1, 1, 1, 1, 7, 7], [0, 2, 0, 1, 0, 0, 0, 1]⟩) ∧
    union ⟨[1, 1, 1, 1, 1, 1, 7, 7], [0, 2, 0, 1, 0, 0, 0, 1]⟩ 0 7 =
      some (true, ⟨[1, 1, 1, 1, 1, 1, 7, 1], [0, 2, 0, 1, 0, 0, 0, 1]⟩) ∧
    in_same_set ⟨[1, 1, 1, 1, 1, 1, 7, 1], [0, 2, 0, 1, 0, 0, 0, 1]⟩ 5 7 =
      some (true, ⟨[1, 1, 1, 1, 1, 1, 7, 1], [0, 2, 0, 1, 0, 0, 0, 1]⟩) := by
  decide

/-- C2: when the two roots differ, `union` attaches the root with
strictly smaller rank under the root with strictly greater rank (its
parent pointer is set to the higher-rank root); on equal ranks the root
obtained from the first argument `a` is attached under the root obtained
from `b` and the surviving root's rank is incremented by one (saturating
at `USIZE_MAX`); in every merging case `union` returns `true`. -/
theorem claim_C2_union_by_rank (uf : UnionFind) (a b : Nat) (hWF : WF uf)
    (ha : a < uf.len) (hb : b < uf.len)
    (hne : rootOf uf a ≠ rootOf uf b) :
    ∃ uf3, union uf a b = some (true, uf3) ∧
      (rankD uf (rootOf uf b) < rankD uf (rootOf uf a) →
        parentD uf3 (rootOf uf b) = rootOf uf a ∧ uf3.ranks = uf.ranks) ∧
      (rankD uf (rootOf uf a) < rankD uf (rootOf uf b) →
        parentD uf3 (rootOf uf a) = rootOf uf b ∧ uf3.ranks = uf.ranks) ∧
      (rankD uf (rootOf uf a) = rankD uf (rootOf uf b) →
        parentD uf3 (rootOf uf a) = rootOf uf b ∧
        uf3.ranks = uf.ranks.set (rootOf uf b)
          (saturating_add (rankD uf (rootOf uf b)) 1)) := by
  obtain ⟨uf3, hu, _, _, hgt, hlt, heq⟩ := union_diff uf a b hWF ha hb hne
  exact ⟨uf3, hu, fun h => ⟨(hgt h).1, (hgt h).2.1⟩,
    fun h => ⟨(hlt h).1, (hlt h).2.1⟩, fun h => ⟨(heq h).1, (heq h).2.1⟩⟩

theorem claim_C2_witness :
    ∃ uf3, union (with_size 2) 0 1 = some (true, uf3) ∧
      (rankD (with_size 2) (rootOf (with_size 2) 1) <
          rankD (with_size 2) (rootOf (with_size 2) 0) →
        parentD uf3 (rootOf (with_size 2) 1) = rootOf (with_size 2) 0 ∧
          uf3.ranks = (with_size 2).ranks) ∧
      (rankD (with_size 2) (rootOf (with_size 2) 0) <
          rankD (with_size 2) (rootOf (with_size 2) 1) →
        parentD uf3 (rootOf (with_size 2) 0) = rootOf (with_size 2) 1 ∧
          uf3.ranks = (with_size 2).ranks) ∧
      (rankD (with_size 2) (rootOf (with_size 2) 0) =
          rankD (with_size 2) (rootOf (with_size 2) 1) →
        parentD uf3 (rootOf (with_size 2) 0) = rootOf (with_size 2) 1 ∧
          uf3.ranks = (with_size 2).ranks.set (rootOf (with_size 2) 1)
            (saturating_add (rankD (with_size 2) (rootOf (with_size 2) 1)) 1)) :=
  claim_C2_union_by_rank (with_size 2) 0 1 (by decide) (by decide) (by decide)
    (by decide)

/-- C3: on a well-formed state, `find e` walks the parent chain
`e, parentD e, parentD² e, …` to the first root (reached after `k` steps,
with no root earlier), returns that root, rewrites each visited node's
parent pointer to the next ancestor beyond its old parent (two steps
along the walk — one step closer to the root than the old parent), and
does not change the rank array. -/
theorem claim_C3_find_compression (uf : UnionFind) (e k : Nat) (hWF : WF uf)
    (he : e < uf.len) (hk : isRoot uf (iterP uf k e))
    (hmin : ∀ j < k, ¬ isRoot uf (iterP uf j e)) :
    ∃ uf2, find uf e = some (iterP uf k e, uf2) ∧ uf2.ranks = uf.ranks ∧
      ∀ j < k, parentD uf2 (iterP uf j e) = iterP uf (j + 2) e := by
  obtain ⟨uf2, h1, h2, h3, _⟩ := find_path uf e k hWF he hk hmin
  exact ⟨uf2, h1, h2, h3⟩

theorem claim_C3_witness :
    ∃ uf2, find (⟨[1, 3, 3, 3], [0, 1, 0, 2]⟩ : UnionFind) 0 =
        some (iterP (⟨[1, 3, 3, 3], [0, 1, 0, 2]⟩ : UnionFind) 2 0, uf2) ∧
      uf2.ranks = (⟨[1, 3, 3, 3], [0, 1, 0, 2]⟩ : UnionFind).ranks ∧
      ∀ j < 2, parentD uf2 (iterP (⟨[1, 3, 3, 3], [0, 1, 0, 2]⟩ : UnionFind) j 0) =
        iterP (⟨[1, 3, 3, 3], [0, 1, 0, 2]⟩ : UnionFind) (j + 2) 0 :=
  claim_C3_find_compression ⟨[1, 3, 3, 3], [0, 1, 0, 2]⟩ 0 2 (by decide)
    (by decide) (by decide) (by decide)

/-- C4, as stated, is false: `union(a, b)` on two elements that already
share a root returns `false` but can still mutate the structure, because
the two embedded `find` calls compress paths.  Concretely, on the state
with `parents = [1, 3, 3, 3]` (reachable from `with_size 4` by
`union(0,1)`, `union(2,3)`, `union(1,3)`), `union(0, 3)` returns `false`
yet rewrites the parent array to `[3, 3, 3, 3]`. -/
theorem claim_C4_counterexample :
    union (⟨[1, 3, 3, 3], [0, 1, 0, 2]⟩ : UnionFind) 0 3 =
      some (false, ⟨[3, 3, 3, 3], [0, 1, 0, 2]⟩) ∧
    (⟨[3, 3, 3, 3], [0, 1, 0, 2]⟩ : UnionFind).parents ≠
      (⟨[1, 3, 3, 3], [0, 1, 0, 2]⟩ : UnionFind).parents ∧
    union (with_size 4) 0 1 =
      some (true, ⟨[1, 1, 2, 3], [0, 1, 0, 0]⟩) ∧
    union (⟨[1, 1, 2, 3], [0, 1, 0, 0]⟩ : UnionFind) 2 3 =
      some (true, ⟨[1, 1, 3, 3], [0, 1, 0, 1]⟩) ∧
    union (⟨[1, 1, 3, 3], [0, 1, 0, 1]⟩ : UnionFind) 1 3 =
      some (true, ⟨[1, 3, 3, 3], [0, 1, 0, 2]⟩) := by
  decide

/-- C4 (amended): if `a` and `b` already have the same root, `union(a,b)`
returns `false` and leaves the partition unchanged — every element keeps
its root — as well as the ranks and the length; parent pointers may still
be rewritten by the two finds' path compression. -/
theorem claim_C4_amended (uf : UnionFind) (a b : Nat) (hWF : WF uf)
    (ha : a < uf.len) (hb : b < uf.len)
    (hroots : rootOf uf a = rootOf uf b) :
    ∃ uf2, union uf a b = some (false, uf2) ∧ uf2.ranks = uf.ranks ∧
      uf2.len = uf.len ∧ ∀ x < uf.len, rootOf uf2 x = rootOf uf x := by
  obtain ⟨uf2, hu, h1, h2, _, h3⟩ := union_same uf a b hWF ha hb hroots
  exact ⟨uf2, hu, h1, h2, h3⟩

theorem claim_C4_amended_witness :
    ∃ uf2, union (with_size 1) 0 0 = some (false, uf2) ∧
      uf2.ranks = (with_size 1).ranks ∧ uf2.len = (with_size 1).len ∧
      ∀ x < (with_size 1).len, rootOf uf2 x = rootOf (with_size 1) x :=
  claim_C4_amended (with_size 1) 0 0 (by decide) (by decide) (by decide)
    (by decide)

/-- C5: `extend k` increases `len` by exactly `k`; the new elements
`len, …, len+k-1` are their own roots with rank 0; pre-existing parent
pointers and ranks are untouched; `extend 0` is the identity; and every
prior `find` or `in_same_set` result for pre-existing elements is
unchanged (same returned root / boolean). -/
theorem claim_C5_extend (uf : UnionFind) (k : Nat) (hWF : WF uf) :
    (extend uf k).len = uf.len + k ∧
    (∀ j < k, parentD (extend uf k) (uf.len + j) = uf.len + j ∧
      rankD (extend uf k) (uf.len + j) = 0) ∧
    (∀ x < uf.len, parentD (extend uf k) x = parentD uf x ∧
      rankD (extend uf k) x = rankD uf x) ∧
    extend uf 0 = uf ∧
    (∀ e < uf.len, ∃ r s1 s2, find uf e = some (r, s1) ∧
      find (extend uf k) e = some (r, s2)) ∧
    (∀ a b, a < uf.len → b < uf.len → ∃ v t1 t2,
      in_same_set uf a b = some (v, t1) ∧
      in_same_set (extend uf k) a b = some (v, t2)) := by
  have hrklen : uf.ranks.length = uf.len := hWF.1
  have hWFe : WF (extend uf k) := WF_extend uf k hWF
  refine ⟨len_extend uf k, ?_, ?_, extend_zero uf, ?_, ?_⟩
  · intro j hj
    exact ⟨parentD_extend_ge uf k (uf.len + j) (by omega) (by omega),
      by
        rw [show uf.len + j = uf.ranks.length + j by omega]
        exact rankD_extend_ge uf k _ (by omega) (by omega)⟩
  · intro x hx
    exact ⟨parentD_extend_lt uf k x hx, rankD_extend_lt uf k x (by omega)⟩
  · intro e he
    obtain ⟨s1, h1, _⟩ := find_eq uf e hWF he
    obtain ⟨s2, h2, _⟩ :=
      find_eq (extend uf k) e hWFe (by rw [len_extend]; omega)
    rw [rootOf_extend uf k e hWF he] at h2
    exact ⟨rootOf uf e, s1, s2, h1, h2⟩
  · intro a b ha hb
    obtain ⟨t1, h1, _⟩ := in_same_set_spec uf a b hWF ha hb
    obtain ⟨t2, h2, _⟩ := in_same_set_spec (extend uf k) a b hWFe
      (by rw [len_extend]; omega) (by rw [len_extend]; omega)
    rw [rootOf_extend uf k a hWF ha, rootOf_extend uf k b hWF hb] at h2
    exact ⟨(rootOf uf a == rootOf uf b), t1, t2, h1, h2⟩

theorem claim_C5_witness :
    (extend (with_size 2) 3).len = (with_size 2).len + 3 ∧
    (∀ j < 3, parentD (extend (with_size 2) 3) ((with_size 2).len + j) =
        (with_size 2).len + j ∧
      rankD (extend (with_size 2) 3) ((with_size 2).len + j) = 0) ∧
    (∀ x < (with_size 2).len,
      parentD (extend (with_size 2) 3) x = parentD (with_size 2) x ∧
      rankD (extend (with_size 2) 3) x = rankD (with_size 2) x) ∧
    extend (with_size 2) 0 = with_size 2 ∧
    (∀ e < (with_size 2).len, ∃ r s1 s2,
      find (with_size 2) e = some (r, s1) ∧
      find (extend (with_size 2) 3) e = some (r, s2)) ∧
    (∀ a b, a < (with_size 2).len → b < (with_size 2).len → ∃ v t1 t2,
      in_same_set (with_size 2) a b = some (v, t1) ∧
      in_same_set (extend (with_size 2) 3) a b = some (v, t2)) :=
  claim_C5_extend (with_size 2) 3 (by decide)

/-- C6: in every state reachable from the constructors via `extend`,
`union`, `find` and `in_same_set`, following parent pointers from any
in-bounds element reaches a root (an element whose parent is itself), and
`find` succeeds (terminates with a result) on every in-bounds input. -/
theorem claim_C6_no_cycles (uf : UnionFind) (h : Reachable uf) :
    (∀ i < uf.len, ∃ k, isRoot uf (iterP uf k i)) ∧
    (∀ e < uf.len, ∃ r uf2, find uf e = some (r, uf2)) := by
  have hWF := reachable_wf uf h
  constructor
  · intro i hi
    obtain ⟨k, _, hk⟩ := hWF.2.2 i hi
    exact ⟨k, hk⟩
  · intro e he
    obtain ⟨uf2, heq, _⟩ := find_eq uf e hWF he
    exact ⟨rootOf uf e, uf2, heq⟩

theorem claim_C6_witness :
    (∀ i < (with_size 3).len, ∃ k, isRoot (with_size 3) (iterP (with_size 3) k i)) ∧
    (∀ e < (with_size 3).len, ∃ r uf2, find (with_size 3) e = some (r, uf2)) :=
  claim_C6_no_cycles (with_size 3) (Reachable.with_size_r 3)

/-- C7: ranks are non-decreasing under a successful `union`, and a rank
already at the maximum representable `usize` value stays there
(saturation, no wrap-around).  The hypothesis says every stored rank is a
representable `usize` value, which is guaranteed by the `usize` type in
the source. -/
theorem claim_C7_rank_saturation (uf uf' : UnionFind) (a b : Nat) (flag : Bool)
    (hrep : ∀ r ∈ uf.ranks, r ≤ USIZE_MAX)
    (h : union uf a b = some (flag, uf')) :
    (∀ i, rankD uf i ≤ rankD uf' i) ∧
    (∀ i, rankD uf i = USIZE_MAX → rankD uf' i = USIZE_MAX) := by
  rcases union_ranks_cases uf uf' a b flag h with hcase | ⟨rep, r, hget, hset⟩
  · have hsame : ∀ i, rankD uf' i = rankD uf i := by
      intro i
      unfold rankD
      rw [hcase]
    exact ⟨fun i => by rw [hsame i], fun i hi => by rw [hsame i]; exact hi⟩
  · have hrle : r ≤ USIZE_MAX := hrep r (List.getElem?_mem hget)
    have hreplen : rep < uf.ranks.length := by
      by_contra hc
      push_neg at hc
      rw [List.getElem?_eq_none hc] at hget
      exact absurd hget (by simp)
    have hrd : rankD uf rep = r := by simp [rankD, hget]
    have hsat : r ≤ saturating_add r 1 ∧
        (r = USIZE_MAX → saturating_add r 1 = USIZE_MAX) := by
      unfold saturating_add
      omega
    constructor
    · intro i
      by_cases hir : i = rep
      · subst hir
        rw [hrd]
        unfold rankD
        rw [hset, List.getElem?_set_self hreplen]
        exact hsat.1
      · unfold rankD
        rw [hset, List.getElem?_set_ne (fun hh => hir hh.symm)]
    · intro i hmax
      by_cases hir : i = rep
      · subst hir
        unfold rankD
        rw [hset, List.getElem?_set_self hreplen]
        show saturating_add r 1 = USIZE_MAX
        exact hsat.2 (by rw [← hrd]; exact hmax)
      · unfold rankD at hmax ⊢
        rw [hset, List.getElem?_set_ne (fun hh => hir hh.symm)]
        exact hmax

theorem claim_C7_witness :
    (∀ i, rankD (with_size 2) i ≤
      rankD (⟨[1, 1], [0, 1]⟩ : UnionFind) i) ∧
    (∀ i, rankD (with_size 2) i = USIZE_MAX →
      rankD (⟨[1, 1], [0, 1]⟩ : UnionFind) i = USIZE_MAX) :=
  claim_C7_rank_saturation (with_size 2) ⟨[1, 1], [0, 1]⟩ 0 1 true
    (by decide) (by decide)

/-- C8: passing an id outside `[0, len)` to `find`, `union`,
`in_same_set`, `parent` or `set_parent` aborts the call (modelled as
`none`, the index panic); with all ids in `[0, len)` and the forest
invariant, every operation completes with a value. -/
theorem claim_C8_bounds (uf : UnionFind) (e b p : Nat) :
    (uf.len ≤ e →
      uf.parent e = none ∧ uf.set_parent e p = none ∧ find uf e = none ∧
      union uf e b = none ∧ union uf b e = none ∧
      in_same_set uf e b = none ∧ in_same_set uf b e = none) ∧
    (WF uf → e < uf.len → b < uf.len →
      (uf.parent e).isSome ∧ (uf.set_parent e p).isSome ∧
      (find uf e).isSome ∧ (union uf e b).isSome ∧
      (in_same_set uf e b).isSome) := by
  constructor
  · intro h
    exact ⟨parent_none uf e h, set_parent_none uf e p h, find_oob uf e h,
      union_oob_left uf e b h, union_oob_right uf b e h,
      in_same_set_oob_left uf e b h, in_same_set_oob_right uf b e h⟩
  · intro hWF he hb
    refine ⟨?_, ?_, ?_, ?_, ?_⟩
    · rw [parent_eq_parentD uf e he]
      rfl
    · rw [set_parent_eq uf e p he]
      rfl
    · obtain ⟨uf2, heq, _⟩ := find_eq uf e hWF he
      rw [heq]
      rfl
    · rcases eq_or_ne (rootOf uf e) (rootOf uf b) with hr | hr
      · obtain ⟨uf2, heq, _⟩ := union_same uf e b hWF he hb hr
        rw [heq]
        rfl
      · obtain ⟨uf3, heq, _⟩ := union_diff uf e b hWF he hb hr
        rw [heq]
        rfl
    · obtain ⟨uf2, heq, _⟩ := in_same_set_spec uf e b hWF he hb
      rw [heq]
      rfl

theorem claim_C8_witness :
    (find (with_size 2) 5 = none) ∧ (find (with_size 2) 0).isSome :=
  ⟨((claim_C8_bounds (with_size 2) 5 0 0).1 (by decide)).2.2.1,
    ((claim_C8_bounds (with_size 2) 0 1 0).2 (by decide) (by decide)
      (by decide)).2.2.1⟩

/-- C9: evaluated on the same starting well-formed state,
`in_same_set(a, b)` and `in_same_set(b, a)` return the same boolean, even
though each call may compress paths. -/
theorem claim_C9_symmetry (uf : UnionFind) (a b : Nat) (hWF : WF uf)
    (ha : a < uf.len) (hb : b < uf.len) :
    ∃ v s1 s2, in_same_set uf a b = some (v, s1) ∧
      in_same_set uf b a = some (v, s2) := by
  obtain ⟨s1, h1, _⟩ := in_same_set_spec uf a b hWF ha hb
  obtain ⟨s2, h2, _⟩ := in_same_set_spec uf b a hWF hb ha
  refine ⟨(rootOf uf a == rootOf uf b), s1, s2, h1, ?_⟩
  have hcb : (rootOf uf b == rootOf uf a) = (rootOf uf a == rootOf uf b) := by
    by_cases hc : rootOf uf a = rootOf uf b
    · rw [hc]
    · simp [hc, Ne.symm hc]
  rw [h2, hcb]

theorem claim_C9_witness :
    ∃ v s1 s2, in_same_set (with_size 2) 0 1 = some (v, s1) ∧
      in_same_set (with_size 2) 1 0 = some (v, s2) :=
  claim_C9_symmetry (with_size 2) 0 1 (by decide) (by decide) (by decide)

/-- C10: on a reachable state, `find e` succeeds and leaves the partition
unchanged: two in-bounds elements have equal roots after the call exactly
when they had equal roots before it. -/
theorem claim_C10_find_preserves_partition (uf : UnionFind) (e : Nat)
    (h : Reachable uf) (he : e < uf.len) :
    ∃ r uf2, find uf e = some (r, uf2) ∧
      ∀ x y, x < uf.len → y < uf.len →
        (rootOf uf2 x = rootOf uf2 y ↔ rootOf uf x = rootOf uf y) := by
  have hWF := reachable_wf uf h
  obtain ⟨uf2, heq, _, _, _, hroots⟩ := find_eq uf e hWF he
  exact ⟨rootOf uf e, uf2, heq,
    fun x y hx hy => by rw [hroots x hx, hroots y hy]⟩

theorem claim_C10_witness :
    ∃ r uf2, find (with_size 2) 0 = some (r, uf2) ∧
      ∀ x y, x < (with_size 2).len → y < (with_size 2).len →
        (rootOf uf2 x = rootOf uf2 y ↔
          rootOf (with_size 2) x = rootOf (with_size 2) y) :=
  claim_C10_find_preserves_partition (with_size 2) 0
    (Reachable.with_size_r 2) (by decide)

end UnionFind

end UF
